import Mathlib

/-!
Verification of the PyCeWL crawler (src/pycewl.py) against its specification.

The development shallowly embeds the program's core: the text tokenizer
(`extract_words`), the email extractor (`extract_emails`), URL scoping
(`is_valid_url`, built on a model of `urllib.parse.urlparse`'s netloc), and
the recursive crawl engine (`crawlF` / `run`).  The HTTP transport and the
HTML parser (requests / BeautifulSoup) are external collaborators; they are
modelled by a `World` providing, for each URL, either a parsed `Page`
(visible text, meta contents, link hrefs) or `none` for a failed
fetch/parse.  `urllib.parse.urljoin` (an external library routine used for
link resolution) is likewise a collaborator, `World.resolve`.

Python strings are modelled as Lean `String`/`List Char` (both count
Unicode code points, as Python `len` does).  Machine-level details play no
role: all arithmetic is on `Nat`.
-/

/-! ## Character classes

The source uses three regular expressions:
  words without digits:  \b[a-zA-ZÀ-ÿ]+\b
  words with digits:     \b[\wÀ-ɏ]+\b
  emails:                \b[A-Za-z0-9._%+-]+@[A-Za-z0-9.-]+\.[A-Z|a-z]{2,}\b
The character classes below are their literal alphabets, decided on the
character's code point. -/

/-- The ten ASCII digit characters 0-9 (U+0030 .. U+0039). -/
def isDigitChar (c : Char) : Bool :=
  0x30 ≤ c.toNat && c.toNat ≤ 0x39

/-- ASCII letters A-Z a-z. -/
def isAsciiAlpha (c : Char) : Bool :=
  (0x41 ≤ c.toNat && c.toNat ≤ 0x5A) || (0x61 ≤ c.toNat && c.toNat ≤ 0x7A)

/-- Python's regex word-character predicate `\w` (with `re.UNICODE`, the
default for `str` patterns): underscore, alphanumeric characters.
Modelled exactly for the Unicode blocks the claims exercise: ASCII,
Latin-1 Supplement (letters, plus the numeric characters ² ³ ¹ ¼ ½ ¾ and
the letters ª µ º; the symbols × U+00D7 and ÷ U+00F7 are not word
characters), Latin Extended-A/B and IPA extensions (U+0100 .. U+02AF, all
letters).  Characters above the modelled blocks are classified as
non-word; every input appearing in the claims stays inside the modelled
blocks. -/
def isWordChar (c : Char) : Bool :=
  let n := c.toNat
  isAsciiAlpha c || isDigitChar c || n == 0x5F ||
  n == 0xAA || n == 0xB5 || n == 0xBA ||
  n == 0xB2 || n == 0xB3 || n == 0xB9 ||
  (0xBC ≤ n && n ≤ 0xBE) ||
  (0xC0 ≤ n && n ≤ 0xFF && !(n == 0xD7) && !(n == 0xF7)) ||
  (0x100 ≤ n && n ≤ 0x2AF)

/-- Alphabet of the digit-free word pattern `[a-zA-ZÀ-ÿ]`:
ASCII letters plus the literal range U+00C0 .. U+00FF (which includes the
non-letters × U+00D7 and ÷ U+00F7). -/
def noNumClass (c : Char) : Bool :=
  isAsciiAlpha c || (0xC0 ≤ c.toNat && c.toNat ≤ 0xFF)

/-- Alphabet of the digit-accepting word pattern `[\wÀ-ɏ]`. -/
def withNumClass (c : Char) : Bool :=
  isWordChar c || (0xC0 ≤ c.toNat && c.toNat ≤ 0x24F)

/-- Alphabet of the email local part `[A-Za-z0-9._%+-]`. -/
def localClass (c : Char) : Bool :=
  isAsciiAlpha c || isDigitChar c ||
  c.toNat == 0x2E || c.toNat == 0x5F || c.toNat == 0x25 ||
  c.toNat == 0x2B || c.toNat == 0x2D

/-- Alphabet of the email domain `[A-Za-z0-9.-]`. -/
def domClass (c : Char) : Bool :=
  isAsciiAlpha c || isDigitChar c || c.toNat == 0x2E || c.toNat == 0x2D

/-- Alphabet of the email final label `[A-Z|a-z]` (the literal `|` is a
member of the class, exactly as written in the source pattern). -/
def tldClass (c : Char) : Bool :=
  isAsciiAlpha c || c.toNat == 0x7C

/-! ## Python `str.lower`

`extract_words` calls `word.lower()`.  Python's `str.lower` uses the
Unicode full lowercase mapping; a character may lowercase to more than one
character ('İ' U+0130 lowercases to "i̇", length 2 — the only
length-changing lowercase mapping in Unicode's SpecialCasing).  The model
is exact on ASCII, on Latin-1 Supplement, and on U+0130; all other
characters (whose Python lowercase is a single character) are left
unchanged, which is sufficient for the claims, whose force lies in
lengths and in the Latin-1 / U+0130 behaviour. -/
def pyLower (c : Char) : List Char :=
  if 0x41 ≤ c.toNat ∧ c.toNat ≤ 0x5A then [Char.ofNat (c.toNat + 0x20)]
  else if 0xC0 ≤ c.toNat ∧ c.toNat ≤ 0xDE ∧ ¬c.toNat = 0xD7 then [Char.ofNat (c.toNat + 0x20)]
  else if c.toNat = 0x130 then [Char.ofNat 0x69, Char.ofNat 0x307]
  else [c]

/-- `str.lower` on a whole string (concatenation of per-character maps). -/
def pyStrLower : List Char → List Char
  | [] => []
  | c :: rest => pyLower c ++ pyStrLower rest

/-! ## The word scanner: `re.findall` of a pattern `\b[class]+\b`

`re.findall` scans left to right; at each position it first checks the
word-boundary assertion `\b` (the characters on the two sides of the
position disagree on `\w`-membership, out-of-string counting as
non-word), then matches the class greedily and backtracks the greedy `+`
until the trailing `\b` holds; on success it emits the match and resumes
after it, on failure it advances one character. -/

/-- `\w`-membership of an optional character (out-of-string = non-word). -/
def optIsWord : Option Char → Bool
  | none => false
  | some c => isWordChar c

/-- The word-boundary assertion `\b` between a previous character (`none`
at the start of the string) and the rest of the string. -/
def atBoundary (prev : Option Char) (s : List Char) : Bool :=
  optIsWord prev != optIsWord s.head?

/-- Greedy backtracking for `[class]+\b`: try match lengths from `n` down
to 1, returning the first length whose trailing position is a `\b`.
`n` is the length of the maximal class run at the current position. -/
def bestSplit (s : List Char) : Nat → Option Nat
  | 0 => none
  | k + 1 => if atBoundary s[k]? (s.drop (k + 1)) then some (k + 1) else bestSplit s k

/-- One scanning pass of `re.findall(r"\b[class]+\b", text)`.  `fuel`
bounds the number of scanning steps; each step consumes at least one
character, so `fuel = length + 1` (see `findRuns`) never runs out. -/
def findRunsFrom (p : Char → Bool) : Nat → Option Char → List Char → List (List Char)
  | _, _, [] => []
  | 0, _, _ :: _ => []
  | fuel + 1, prev, c :: rest =>
    if atBoundary prev (c :: rest) then
      match bestSplit (c :: rest) ((c :: rest).takeWhile p).length with
      | some k => (c :: rest).take k :: findRunsFrom p fuel (c :: rest)[k-1]? ((c :: rest).drop k)
      | none => findRunsFrom p fuel (some c) rest
    else findRunsFrom p fuel (some c) rest

/-- `re.findall(r"\b[class]+\b", s)` as a list of character runs. -/
def findRuns (p : Char → Bool) (s : List Char) : List (List Char) :=
  findRunsFrom p (s.length + 1) none s

/-! ## The email scanner:
`re.findall(r"\b[A-Za-z0-9._%+-]+@[A-Za-z0-9.-]+\.[A-Z|a-z]{2,}\b", text)`

The same greedy-with-backtracking semantics, specialised to the pattern's
shape: each `try...` helper walks candidate lengths of one greedy piece
downwards, first success wins, mirroring the regex engine's backtracking
order (rightmost piece retried first). -/

/-- Candidate lengths for the final label `[A-Z|a-z]{2,}\b`, greedily from
the maximal run length down to 2. -/
def tryTld (s3 : List Char) : Nat → Option Nat
  | 0 => none
  | 1 => none
  | k + 2 =>
    if atBoundary s3[k+1]? (s3.drop (k + 2)) then some (k + 2) else tryTld s3 (k + 1)

/-- Candidate lengths for the domain `[A-Za-z0-9.-]+` followed by a
literal `.` and the final label; greedy, backtracking downwards. -/
def tryDom (s2 : List Char) : Nat → Option Nat
  | 0 => none
  | b + 1 =>
    match (if s2[b+1]? = some '.' then
             let s3 := s2.drop (b + 2)
             (tryTld s3 (s3.takeWhile tldClass).length).map (fun t => b + 2 + t)
           else none) with
    | some r => some r
    | none => tryDom s2 b

/-- Candidate lengths for the local part `[A-Za-z0-9._%+-]+` followed by a
literal `@`, the domain and the final label; greedy, backtracking
downwards. -/
def tryLocal (s : List Char) : Nat → Option Nat
  | 0 => none
  | a + 1 =>
    match (if s[a+1]? = some '@' then
             let s2 := s.drop (a + 2)
             (tryDom s2 (s2.takeWhile domClass).length).map (fun d => a + 2 + d)
           else none) with
    | some r => some r
    | none => tryLocal s a

/-- Length of the email-pattern match starting exactly at the current
position, if any. -/
def matchEmailAt (prev : Option Char) (s : List Char) : Option Nat :=
  if atBoundary prev s then tryLocal s (s.takeWhile localClass).length else none

/-- Scanning pass for the email pattern (same stepping as `findRunsFrom`). -/
def findEmailsFrom : Nat → Option Char → List Char → List (List Char)
  | _, _, [] => []
  | 0, _, _ :: _ => []
  | fuel + 1, prev, c :: rest =>
    match matchEmailAt prev (c :: rest) with
    | some k => (c :: rest).take k :: findEmailsFrom fuel (c :: rest)[k-1]? ((c :: rest).drop k)
    | none => findEmailsFrom fuel (some c) rest

/-- `PyCeWL.extract_emails` (src/pycewl.py lines 73-76): findall of the
email pattern.  The method reads nothing from `self`. -/
def extract_emails (text : String) : List String :=
  (findEmailsFrom (text.data.length + 1) none text.data).map String.mk

/-! ## URL scoping: `urllib.parse.urlparse(...).netloc`

`is_valid_url` compares the `netloc` components of the start URL and the
candidate URL.  The model follows CPython's `urlsplit`: remove the unsafe
bytes tab/CR/LF; if the text before the first `:` is a non-empty scheme
(first character an ASCII letter, all characters in
`[A-Za-z0-9+.-]`), drop it and the colon; then the netloc is present only
if the remainder starts with `//`, and extends to the next `/`, `?` or
`#`. -/

/-- Characters CPython's urlsplit removes from a URL before parsing. -/
def removeUnsafe (cs : List Char) : List Char :=
  cs.filter (fun c => !(c == '\t' || c == '\r' || c == '\n'))

/-- Valid scheme characters (`scheme_chars` in urllib.parse). -/
def schemeChar (c : Char) : Bool :=
  isAsciiAlpha c || isDigitChar c ||
  c.toNat == 0x2B || c.toNat == 0x2D || c.toNat == 0x2E

/-- Index of the first colon, as `str.find(':')`. -/
def colonIdx : List Char → Option Nat
  | [] => none
  | c :: rest => if c == ':' then some 0 else (colonIdx rest).map (· + 1)

/-- ASCII-letter test on an optional character (`url[0].isascii() and
url[0].isalpha()`; an empty URL has no scheme). -/
def optIsAsciiAlpha : Option Char → Bool
  | none => false
  | some c => isAsciiAlpha c

/-- Remove a leading `scheme:` if present and well-formed. -/
def splitSchemeRest (cs : List Char) : List Char :=
  match colonIdx cs with
  | some i =>
    if 0 < i ∧ (cs.take i).all schemeChar ∧ (optIsAsciiAlpha cs.head?) = true
    then cs.drop (i + 1) else cs
  | none => cs

/-- The netloc of a scheme-stripped URL: present only after `//`, up to
the first `/`, `?` or `#`. -/
def netlocCore : List Char → List Char
  | '/' :: '/' :: rest => rest.takeWhile (fun c => !(c == '/' || c == '?' || c == '#'))
  | _ => []

/-- `urllib.parse.urlparse(url).netloc`. -/
def netlocOf (url : String) : String :=
  String.mk (netlocCore (splitSchemeRest (removeUnsafe url.data)))

/-! ## The PyCeWL instance and the crawl engine

`PyCeWL.__init__` stores the run configuration (the mutable visited-set,
word tally and email set are the `CrawlState`).  `auth` and `user_agent`
only configure the HTTP session of the external transport and are carried
along for completeness. -/

structure PyCeWL where
  start_url : String
  depth : Nat
  min_word_length : Nat
  max_word_length : Option Nat
  lowercase : Bool
  with_numbers : Bool
  email_file : Option String
  meta : Bool
  auth : Option (String × String) := none
  user_agent : Option String := none
deriving DecidableEq

/-- `PyCeWL.is_valid_url` (lines 45-49): the two URLs' netlocs coincide. -/
def is_valid_url (self : PyCeWL) (url : String) : Bool :=
  netlocOf self.start_url == netlocOf url

/-- The length filter of `extract_words` (lines 66-67):
`word_len >= self.min_word_length` and
`self.max_word_length is None or word_len <= self.max_word_length`. -/
def lenOK (self : PyCeWL) (n : Nat) : Bool :=
  decide (self.min_word_length ≤ n) &&
  (match self.max_word_length with
   | none => true
   | some m => decide (n ≤ m))

/-- `PyCeWL.extract_words` (lines 51-71): findall of the word pattern
selected by `with_numbers`, then keep the length-passing matches,
lowercased.  The `lowercase` flag is never read. -/
def extract_words (self : PyCeWL) (text : String) : List String :=
  let pat := if self.with_numbers then withNumClass else noNumClass
  (findRuns pat text.data).filterMap (fun word =>
    if lenOK self word.length then some (String.mk (pyStrLower word)) else none)

/-- A fetched-and-parsed page, as delivered by the external collaborators
(requests + BeautifulSoup): the visible text after script/style removal,
the `content` attributes of the `<meta>` tags in document order, and the
`href` attributes of the `<a href=...>` tags in document order. -/
structure Page where
  text : String
  meta_contents : List String
  hrefs : List String
deriving DecidableEq

/-- The external collaborators of one run.  `fetch url = none` models any
exception raised while fetching or parsing `url` (network error, non-2xx
status via `raise_for_status`, timeout, malformed HTML); the handlers at
lines 128-131 catch it.  `resolve` models `urllib.parse.urljoin`. -/
structure World where
  fetch : String → Option Page
  resolve : String → String → String

/-- The mutable per-run state: `visited_urls` (a Python set, modelled as
a duplicate-free insertion-ordered list), the word tally (`Counter`,
modelled as the list of tallied occurrences: the counter's value at `w`
is `words.count w`), the email set, and `fetch_log`: the ghost record of
the `session.get` calls, in order, each with the depth it was made at
(observable as the line-89 progress report). -/
structure CrawlState where
  visited_urls : List String
  words : List String
  emails : List String
  fetch_log : List (String × Nat)
deriving DecidableEq

/-- `set.add`: insert if absent. -/
def setAdd (l : List String) (u : String) : List String :=
  if u ∈ l then l else l ++ [u]

/-- `set.update(iterable)`: insert each element in turn. -/
def setUpdate (l : List String) (us : List String) : List String :=
  us.foldl setAdd l

/-- `next_url.split('#')[0]` (line 125): the prefix before the first `#`. -/
def stripFragment (u : String) : String :=
  String.mk (u.data.takeWhile (fun c => !(c == '#')))

/-- Lines 86-90: mark `url` visited, then attempt the fetch (the attempt
is recorded in the ghost `fetch_log` together with the current depth). -/
def visitMark (st : CrawlState) (url : String) (d : Nat) : CrawlState :=
  { st with visited_urls := setAdd st.visited_urls url,
            fetch_log := st.fetch_log ++ [(url, d)] }

/-- Lines 112-118: tokenize each non-empty meta `content` string.
(`tag.get('content', '')` is truthy exactly when non-empty.) -/
def metaWords (self : PyCeWL) (contents : List String) : List String :=
  match contents with
  | [] => []
  | content :: rest =>
    (if content ≠ "" then extract_words self content else []) ++ metaWords self rest

/-- Lines 100-104: merge the page's body words into the tally. -/
def absorbBody (self : PyCeWL) (st : CrawlState) (page : Page) : CrawlState :=
  { st with words := st.words ++ extract_words self page.text }

/-- Lines 106-109: merge the page's emails into the email set when email
extraction is on (`self.email_file` truthy, i.e. a non-empty string). -/
def absorbEmails (self : PyCeWL) (st : CrawlState) (page : Page) : CrawlState :=
  if self.email_file.getD "" ≠ ""
  then { st with emails := setUpdate st.emails (extract_emails page.text) }
  else st

/-- Lines 111-118: merge the meta words into the tally when `self.meta`. -/
def absorbMeta (self : PyCeWL) (st : CrawlState) (page : Page) : CrawlState :=
  if self.meta
  then { st with words := st.words ++ metaWords self page.meta_contents }
  else st

/-- Lines 100-118: the page-processing sequence, in source order. -/
def absorbPage (self : PyCeWL) (st : CrawlState) (page : Page) : CrawlState :=
  absorbMeta self (absorbEmails self (absorbBody self st page) page) page

/-- `PyCeWL.crawl` (lines 78-131), with an explicit fuel bounding the
recursion depth.  Each recursive call is made at `current_depth + 1` and
only under `current_depth < self.depth`, so the nesting is bounded by
`self.depth + 1 - current_depth`; `crawl_fuel_irrelevant` below proves
any fuel at least that large gives the same result, which is the
termination argument.  The body mirrors the source line by line:
depth/visited guard, scope guard, visit-mark, fetch (`none` = exception:
the handler reports and returns), absorb the page, and when
`current_depth < self.depth` crawl each `urljoin`-resolved,
fragment-stripped link in order. -/
def crawlF (self : PyCeWL) (w : World) : Nat → String → Nat → CrawlState → CrawlState
  | 0, _, _, st => st
  | fuel + 1, url, current_depth, st =>
    if current_depth > self.depth ∨ url ∈ st.visited_urls then st
    else if is_valid_url self url = false then st
    else
      match w.fetch url with
      | none => visitMark st url current_depth
      | some page =>
        if current_depth < self.depth then
          page.hrefs.foldl
            (fun acc href =>
              crawlF self w fuel (stripFragment (w.resolve url href)) (current_depth + 1) acc)
            (absorbPage self (visitMark st url current_depth) page)
        else absorbPage self (visitMark st url current_depth) page

/-- The empty state a run starts from. -/
def emptyCrawlState : CrawlState :=
  { visited_urls := [], words := [], emails := [], fetch_log := [] }

/-- `PyCeWL.run` (lines 133-140): crawl the start URL at depth 0 from the
empty state. -/
def run (self : PyCeWL) (w : World) : CrawlState :=
  crawlF self w (self.depth + 1) self.start_url 0 emptyCrawlState

/-! ## Character-level lemmas -/

/-- `Char.ofNat` at a valid code point below the surrogate range keeps
the code point. -/
theorem char_toNat_ofNat (n : Nat) (h : n < 0xD800) : (Char.ofNat n).toNat = n := by
  have hv : n.isValidChar := Or.inl h
  simp [Char.ofNat, hv, Char.ofNatAux, Char.toNat, UInt32.toNat, BitVec.toNat_ofNatLt]

/-- Lowercasing never maps a character to the empty string. -/
theorem pyLower_length_pos (c : Char) : 1 ≤ (pyLower c).length := by
  unfold pyLower
  split <;> simp_all
  split <;> simp_all
  split <;> simp_all

/-- A character hitting none of the three lowering branches is left
unchanged by `pyLower`. -/
theorem pyLower_eq_self (d : Char)
    (h1 : ¬(0x41 ≤ d.toNat ∧ d.toNat ≤ 0x5A))
    (h2 : ¬(0xC0 ≤ d.toNat ∧ d.toNat ≤ 0xDE ∧ ¬d.toNat = 0xD7))
    (h3 : ¬d.toNat = 0x130) : pyLower d = [d] := by
  unfold pyLower
  rw [if_neg h1, if_neg h2, if_neg h3]

/-- Every character produced by `pyLower` is a fixed point of `pyLower`:
Python's lowercase mapping is idempotent. -/
theorem pyLower_fix (c d : Char) (hd : d ∈ pyLower c) : pyLower d = [d] := by
  unfold pyLower at hd
  split at hd
  case isTrue h =>
    simp only [List.mem_singleton] at hd
    subst hd
    have ht : (Char.ofNat (c.toNat + 0x20)).toNat = c.toNat + 0x20 :=
      char_toNat_ofNat _ (by omega)
    apply pyLower_eq_self <;> rw [ht] <;> omega
  case isFalse h =>
    split at hd
    case isTrue h2 =>
      simp only [List.mem_singleton] at hd
      subst hd
      have ht : (Char.ofNat (c.toNat + 0x20)).toNat = c.toNat + 0x20 :=
        char_toNat_ofNat _ (by omega)
      apply pyLower_eq_self <;> rw [ht] <;> omega
    case isFalse h2 =>
      split at hd
      case isTrue h3 =>
        simp only [List.mem_cons, List.mem_singleton, List.not_mem_nil, or_false] at hd
        rcases hd with hd | hd
        · subst hd
          have ht : (Char.ofNat 0x69).toNat = 0x69 := char_toNat_ofNat _ (by omega)
          apply pyLower_eq_self <;> rw [ht] <;> omega
        · subst hd
          have ht : (Char.ofNat 0x307).toNat = 0x307 := char_toNat_ofNat _ (by omega)
          apply pyLower_eq_self <;> rw [ht] <;> omega
      case isFalse h3 =>
        simp only [List.mem_singleton] at hd
        subst hd
        exact pyLower_eq_self _ h h2 h3

/-- On the digit-free alphabet, lowercasing is a single character that is
again in the alphabet (the block U+00C0 .. U+00FF is closed under
lowercasing, U+0130 is outside the alphabet). -/
theorem pyLower_noNum (c : Char) (hc : noNumClass c = true) :
    ∃ d, pyLower c = [d] ∧ noNumClass d = true := by
  simp only [noNumClass, isAsciiAlpha, Bool.or_eq_true, Bool.and_eq_true,
    decide_eq_true_eq] at hc
  unfold pyLower
  split
  case isTrue h =>
    refine ⟨_, rfl, ?_⟩
    simp only [noNumClass, isAsciiAlpha, Bool.or_eq_true, Bool.and_eq_true, decide_eq_true_eq]
    rw [char_toNat_ofNat (c.toNat + 0x20) (by omega)]
    omega
  case isFalse h =>
    split
    case isTrue h2 =>
      refine ⟨_, rfl, ?_⟩
      simp only [noNumClass, isAsciiAlpha, Bool.or_eq_true, Bool.and_eq_true, decide_eq_true_eq]
      rw [char_toNat_ofNat (c.toNat + 0x20) (by omega)]
      omega
    case isFalse h2 =>
      split
      case isTrue h3 => omega
      case isFalse h3 =>
        refine ⟨c, rfl, ?_⟩
        simp only [noNumClass, isAsciiAlpha, Bool.or_eq_true, Bool.and_eq_true, decide_eq_true_eq]
        exact hc

/-- Lowercasing a member of the digit-free alphabet yields no digit of
any kind: the image stays in { a-z, U+00C0 .. U+00FF }. -/
theorem pyLower_noNum_not_digit (c d : Char) (hc : noNumClass c = true)
    (hd : d ∈ pyLower c) : isDigitChar d = false := by
  obtain ⟨e, he, hcls⟩ := pyLower_noNum c hc
  rw [he, List.mem_singleton] at hd
  subst hd
  simp only [noNumClass, isAsciiAlpha, Bool.or_eq_true, Bool.and_eq_true,
    decide_eq_true_eq] at hcls
  rw [Bool.eq_false_iff]
  intro htrue
  simp only [isDigitChar, Bool.and_eq_true, decide_eq_true_eq] at htrue
  omega

/-! ## String-level lowercase lemmas -/

theorem pyStrLower_append (a b : List Char) :
    pyStrLower (a ++ b) = pyStrLower a ++ pyStrLower b := by
  induction a with
  | nil => rfl
  | cons c rest ih => simp [pyStrLower, ih]

theorem pyStrLower_length_ge (l : List Char) : l.length ≤ (pyStrLower l).length := by
  induction l with
  | nil => simp [pyStrLower]
  | cons c rest ih =>
    have := pyLower_length_pos c
    simp only [pyStrLower, List.length_append, List.length_cons]
    omega

/-- A string all of whose characters are `pyLower`-fixed is
`pyStrLower`-fixed. -/
theorem pyStrLower_of_all_fix (l : List Char) (h : ∀ d ∈ l, pyLower d = [d]) :
    pyStrLower l = l := by
  induction l with
  | nil => rfl
  | cons c rest ih =>
    simp only [pyStrLower, h c (List.mem_cons_self c rest),
      ih (fun d hd => h d (List.mem_cons_of_mem c hd)), List.singleton_append]

/-- Lowercasing a whole string is idempotent. -/
theorem pyStrLower_idem (l : List Char) : pyStrLower (pyStrLower l) = pyStrLower l := by
  induction l with
  | nil => rfl
  | cons c rest ih =>
    simp only [pyStrLower, pyStrLower_append, ih]
    congr 1
    exact pyStrLower_of_all_fix _ (fun d hd => pyLower_fix c d hd)

/-- Membership in a lowercased string comes from lowercasing a member. -/
theorem mem_pyStrLower (l : List Char) (d : Char) (hd : d ∈ pyStrLower l) :
    ∃ c ∈ l, d ∈ pyLower c := by
  induction l with
  | nil => simp [pyStrLower] at hd
  | cons c rest ih =>
    simp only [pyStrLower, List.mem_append] at hd
    rcases hd with hd | hd
    · exact ⟨c, List.mem_cons_self c rest, hd⟩
    · obtain ⟨e, he, hde⟩ := ih hd
      exact ⟨e, List.mem_cons_of_mem c he, hde⟩

/-! ## Scanner lemmas -/

/-- A successful backtracking result lies between 1 and the maximal run
length it started from. -/
theorem bestSplit_bounds (s : List Char) :
    ∀ n k, bestSplit s n = some k → 1 ≤ k ∧ k ≤ n := by
  intro n
  induction n with
  | zero => intro k h; simp [bestSplit] at h
  | succ m ih =>
    intro k h
    unfold bestSplit at h
    split at h
    · simp only [Option.some.injEq] at h
      omega
    · have := ih k h
      omega

/-- Characters of a prefix no longer than the maximal `p`-run satisfy `p`. -/
theorem take_all_of_le_takeWhile (p : Char → Bool) :
    ∀ (s : List Char) (k : Nat), k ≤ (s.takeWhile p).length →
      ∀ c ∈ s.take k, p c = true := by
  intro s
  induction s with
  | nil => intro k _ c hc; simp at hc
  | cons a rest ih =>
    intro k hk c hc
    cases k with
    | zero => simp at hc
    | succ j =>
      by_cases hpa : p a = true
      · rw [List.takeWhile_cons_of_pos hpa] at hk
        simp only [List.length_cons, Nat.succ_le_succ_iff] at hk
        simp only [List.take_succ_cons, List.mem_cons] at hc
        rcases hc with hc | hc
        · exact hc ▸ hpa
        · exact ih j hk c hc
      · rw [List.takeWhile_cons_of_neg (by simpa using hpa)] at hk
        simp at hk

/-- Every run the word scanner emits is non-empty and drawn entirely from
the class alphabet. -/
theorem findRunsFrom_mem (p : Char → Bool) :
    ∀ (fuel : Nat) (prev : Option Char) (s : List Char) (r : List Char),
      r ∈ findRunsFrom p fuel prev s → r ≠ [] ∧ ∀ c ∈ r, p c = true := by
  intro fuel
  induction fuel with
  | zero =>
    intro prev s r hr
    cases s <;> simp [findRunsFrom] at hr
  | succ f ih =>
    intro prev s r hr
    cases s with
    | nil => simp [findRunsFrom] at hr
    | cons c rest =>
      unfold findRunsFrom at hr
      split at hr
      · split at hr
        case _ k hk =>
          simp only [List.mem_cons] at hr
          rcases hr with hr | hr
          · subst hr
            have hb := bestSplit_bounds (c :: rest) _ k hk
            constructor
            · cases hbk : k with
              | zero => omega
              | succ j => simp [hbk]
            · exact take_all_of_le_takeWhile p (c :: rest) k hb.2
          · exact ih _ _ r hr
        case _ hk => exact ih _ _ r hr
      · exact ih _ _ r hr

/-- `findRuns` version of `findRunsFrom_mem`. -/
theorem findRuns_mem (p : Char → Bool) (s : List Char) (r : List Char)
    (hr : r ∈ findRuns p s) : r ≠ [] ∧ ∀ c ∈ r, p c = true :=
  findRunsFrom_mem p (s.length + 1) none s r hr

/-! ## `extract_words` lemmas -/

/-- Every output of `extract_words` is the lowercase of a scanner run that
passed the length filter. -/
theorem extract_words_mem (self : PyCeWL) (t : String) (x : String)
    (hx : x ∈ extract_words self t) :
    ∃ r ∈ findRuns (if self.with_numbers then withNumClass else noNumClass) t.data,
      lenOK self r.length = true ∧ x = String.mk (pyStrLower r) := by
  unfold extract_words at hx
  simp only [List.mem_filterMap] at hx
  obtain ⟨r, hr, hmk⟩ := hx
  split at hmk
  case isTrue h =>
    simp only [Option.some.injEq] at hmk
    exact ⟨r, hr, h, hmk.symm⟩
  case isFalse h => simp at hmk

/-- Every output of `extract_words` meets the minimum length and is a
fixed point of lowercasing. -/
theorem extract_words_wordOk (self : PyCeWL) (t x : String)
    (hx : x ∈ extract_words self t) :
    self.min_word_length ≤ x.length ∧ pyStrLower x.data = x.data := by
  obtain ⟨r, _, hlen, hxe⟩ := extract_words_mem self t x hx
  subst hxe
  constructor
  · have h1 : self.min_word_length ≤ r.length := by
      simp only [lenOK, Bool.and_eq_true, decide_eq_true_eq] at hlen
      exact hlen.1
    have h2 := pyStrLower_length_ge r
    show self.min_word_length ≤ (pyStrLower r).length
    omega
  · show pyStrLower (pyStrLower r) = pyStrLower r
    exact pyStrLower_idem r

/-- With `with_numbers = false`, no output character is a digit. -/
theorem extract_words_no_digit (self : PyCeWL)
    (h : self.with_numbers = false) (t x : String) (ch : Char)
    (hx : x ∈ extract_words self t) (hch : ch ∈ x.data) :
    isDigitChar ch = false := by
  obtain ⟨r, hr, _, hxe⟩ := extract_words_mem self t x hx
  rw [h] at hr
  simp only [Bool.false_eq_true, if_false] at hr
  have hcls := (findRuns_mem _ _ r hr).2
  subst hxe
  have hch' : ch ∈ pyStrLower r := hch
  obtain ⟨c, hc, hchc⟩ := mem_pyStrLower r ch hch'
  exact pyLower_noNum_not_digit c ch (hcls c hc) hchc

/-! ## Lowercasing the digit-free alphabet -/

/-- On an all-`noNumClass` string, lowercasing preserves the length and
the alphabet. -/
theorem pyStrLower_noNum (r : List Char) (h : ∀ c ∈ r, noNumClass c = true) :
    (pyStrLower r).length = r.length ∧ ∀ d ∈ pyStrLower r, noNumClass d = true := by
  induction r with
  | nil => simp [pyStrLower]
  | cons c rest ih =>
    obtain ⟨d, hd, hdc⟩ := pyLower_noNum c (h c (List.mem_cons_self c rest))
    have ihh := ih (fun x hx => h x (List.mem_cons_of_mem c hx))
    constructor
    · simp [pyStrLower, hd, ihh.1]
    · intro e he
      simp only [pyStrLower, hd, List.singleton_append, List.mem_cons] at he
      rcases he with he | he
      · exact he ▸ hdc
      · exact ihh.2 e he

/-! ## The scanner on a whole-word string -/

/-- The scanner returns nothing on an empty string, at any fuel. -/
theorem findRunsFrom_nil (p : Char → Bool) (fuel : Nat) (prev : Option Char) :
    findRunsFrom p fuel prev [] = [] := by
  cases fuel <;> rfl

/-- Unfolding equation of the scanner on a non-empty string. -/
theorem findRunsFrom_succ_cons (p : Char → Bool) (fuel : Nat) (prev : Option Char)
    (c : Char) (rest : List Char) :
    findRunsFrom p (fuel + 1) prev (c :: rest) =
      if atBoundary prev (c :: rest) then
        match bestSplit (c :: rest) ((c :: rest).takeWhile p).length with
        | some k =>
          (c :: rest).take k :: findRunsFrom p fuel (c :: rest)[k-1]? ((c :: rest).drop k)
        | none => findRunsFrom p fuel (some c) rest
      else findRunsFrom p fuel (some c) rest := rfl

/-- Unfolding equation of the backtracker. -/
theorem bestSplit_succ (s : List Char) (j : Nat) :
    bestSplit s (j + 1) =
      if atBoundary s[j]? (s.drop (j + 1)) then some (j + 1) else bestSplit s j := rfl

/-- On a non-empty string made entirely of class characters that are all
word characters, the scanner emits the whole string as its single run:
the leading `\b` holds at the start, the greedy run swallows everything,
and the trailing `\b` holds at the end. -/
theorem findRuns_whole (p : Char → Bool) (l : List Char) (hne : l ≠ [])
    (hcls : ∀ c ∈ l, p c = true) (hword : ∀ c ∈ l, isWordChar c = true) :
    findRuns p l = [l] := by
  cases l with
  | nil => exact absurd rfl hne
  | cons c rest =>
    show findRunsFrom p ((c :: rest).length + 1) none (c :: rest) = [c :: rest]
    have hlen : (c :: rest).length = rest.length + 1 := rfl
    rw [hlen, findRunsFrom_succ_cons]
    have hb : atBoundary none (c :: rest) = true := by
      simp [atBoundary, optIsWord, hword c (List.mem_cons_self c rest)]
    rw [if_pos hb, List.takeWhile_eq_self_iff.mpr hcls]
    have hget : (c :: rest)[rest.length]? = some ((c :: rest).getLast (by simp)) := by
      rw [List.getElem?_eq_getElem (by simp)]
      congr 1
      rw [List.getLast_eq_getElem]
      simp
    have hdrop : (c :: rest).drop (rest.length + 1) = [] := by
      apply List.drop_eq_nil_of_le
      simp
    have hb2 : atBoundary (c :: rest)[rest.length]? ((c :: rest).drop (rest.length + 1)) = true := by
      rw [hget, hdrop]
      simp [atBoundary, optIsWord, hword _ (List.getLast_mem _)]
    have hbs : bestSplit (c :: rest) ((c :: rest).length) = some (rest.length + 1) := by
      rw [hlen, bestSplit_succ, if_pos hb2]
    rw [hbs]
    simp only []
    rw [show (c :: rest).take (rest.length + 1) = c :: rest from by
          rw [← hlen]; exact List.take_length _,
        show (c :: rest).drop (rest.length + 1) = [] from hdrop,
        findRunsFrom_nil]

/-! ## URL scoping lemmas -/

/-- `is_valid_url` is exactly netloc equality. -/
theorem is_valid_url_iff (self : PyCeWL) (url : String) :
    is_valid_url self url = true ↔ netlocOf url = netlocOf self.start_url := by
  simp only [is_valid_url, beq_iff_eq]
  exact eq_comm

theorem colonIdx_http (l : List Char) :
    colonIdx ('h' :: 't' :: 't' :: 'p' :: ':' :: l) = some 4 := rfl

theorem colonIdx_https (l : List Char) :
    colonIdx ('h' :: 't' :: 't' :: 'p' :: 's' :: ':' :: l) = some 5 := rfl

theorem splitSchemeRest_http (l : List Char) :
    splitSchemeRest ('h' :: 't' :: 't' :: 'p' :: ':' :: l) = l := rfl

theorem splitSchemeRest_https (l : List Char) :
    splitSchemeRest ('h' :: 't' :: 't' :: 'p' :: 's' :: ':' :: l) = l := rfl

/-- The scheme is irrelevant to the netloc: `http://X` and `https://X`
have the same netloc, for every `X`. -/
theorem netlocOf_scheme_swap (X : String) :
    netlocOf ("http://" ++ X) = netlocOf ("https://" ++ X) := by
  cases X with
  | mk l =>
    show String.mk (netlocCore (splitSchemeRest
        (removeUnsafe ('h' :: 't' :: 't' :: 'p' :: ':' :: '/' :: '/' :: l)))) =
      String.mk (netlocCore (splitSchemeRest
        (removeUnsafe ('h' :: 't' :: 't' :: 'p' :: 's' :: ':' :: '/' :: '/' :: l))))
    rw [show removeUnsafe ('h' :: 't' :: 't' :: 'p' :: ':' :: '/' :: '/' :: l) =
          'h' :: 't' :: 't' :: 'p' :: ':' :: '/' :: '/' :: removeUnsafe l from rfl,
        show removeUnsafe ('h' :: 't' :: 't' :: 'p' :: 's' :: ':' :: '/' :: '/' :: l) =
          'h' :: 't' :: 't' :: 'p' :: 's' :: ':' :: '/' :: '/' :: removeUnsafe l from rfl,
        splitSchemeRest_http, splitSchemeRest_https]

/-! ## Crawl-state lemmas -/

/-- The property claimed of every tallied word: it meets the minimum
length and is a fixed point of lowercasing. -/
def wordOk (self : PyCeWL) (x : String) : Prop :=
  self.min_word_length ≤ x.length ∧ pyStrLower x.data = x.data

theorem metaWords_wordOk (self : PyCeWL) (contents : List String) :
    ∀ x ∈ metaWords self contents, wordOk self x := by
  induction contents with
  | nil => intro x hx; simp [metaWords] at hx
  | cons content rest ih =>
    intro x hx
    unfold metaWords at hx
    rw [List.mem_append] at hx
    rcases hx with hx | hx
    · split at hx
      · exact extract_words_wordOk self content x hx
      · simp at hx
    · exact ih x hx

theorem absorbPage_visited (self : PyCeWL) (st : CrawlState) (page : Page) :
    (absorbPage self st page).visited_urls = st.visited_urls := by
  unfold absorbPage absorbMeta absorbEmails absorbBody
  split <;> split <;> rfl

theorem absorbPage_log (self : PyCeWL) (st : CrawlState) (page : Page) :
    (absorbPage self st page).fetch_log = st.fetch_log := by
  unfold absorbPage absorbMeta absorbEmails absorbBody
  split <;> split <;> rfl

theorem absorbPage_words (self : PyCeWL) (st : CrawlState) (page : Page) :
    ∃ ws, (absorbPage self st page).words = st.words ++ ws ∧ ∀ x ∈ ws, wordOk self x := by
  unfold absorbPage absorbMeta absorbEmails absorbBody
  split
  · split
    · refine ⟨extract_words self page.text ++ metaWords self page.meta_contents, by simp, ?_⟩
      intro x hx
      rw [List.mem_append] at hx
      rcases hx with hx | hx
      · exact extract_words_wordOk self page.text x hx
      · exact metaWords_wordOk self page.meta_contents x hx
    · refine ⟨extract_words self page.text ++ metaWords self page.meta_contents, by simp, ?_⟩
      intro x hx
      rw [List.mem_append] at hx
      rcases hx with hx | hx
      · exact extract_words_wordOk self page.text x hx
      · exact metaWords_wordOk self page.meta_contents x hx
  · split
    · refine ⟨extract_words self page.text, rfl, ?_⟩
      intro x hx
      exact extract_words_wordOk self page.text x hx
    · refine ⟨extract_words self page.text, rfl, ?_⟩
      intro x hx
      exact extract_words_wordOk self page.text x hx

theorem visitMark_eq (st : CrawlState) (url : String) (d : Nat)
    (h : url ∉ st.visited_urls) :
    visitMark st url d =
      { st with visited_urls := st.visited_urls ++ [url],
                fetch_log := st.fetch_log ++ [(url, d)] } := by
  unfold visitMark setAdd
  rw [if_neg h]

/-- Unfolding equation of `crawlF` at zero fuel. -/
theorem crawlF_zero (self : PyCeWL) (w : World) (url : String) (d : Nat) (st : CrawlState) :
    crawlF self w 0 url d st = st := rfl

/-- Unfolding equation of `crawlF` at positive fuel. -/
theorem crawlF_succ (self : PyCeWL) (w : World) (fuel : Nat) (url : String) (d : Nat)
    (st : CrawlState) :
    crawlF self w (fuel + 1) url d st =
      if d > self.depth ∨ url ∈ st.visited_urls then st
      else if is_valid_url self url = false then st
      else
        match w.fetch url with
        | none => visitMark st url d
        | some page =>
          if d < self.depth then
            page.hrefs.foldl
              (fun acc href =>
                crawlF self w fuel (stripFragment (w.resolve url href)) (d + 1) acc)
              (absorbPage self (visitMark st url d) page)
          else absorbPage self (visitMark st url d) page := rfl

/-- `crawlF` when the depth/visited guard fires: nothing happens. -/
theorem crawlF_succ_stop (self : PyCeWL) (w : World) (fuel : Nat) (url : String) (d : Nat)
    (st : CrawlState) (h1 : d > self.depth ∨ url ∈ st.visited_urls) :
    crawlF self w (fuel + 1) url d st = st := by
  rw [crawlF_succ, if_pos h1]

/-- `crawlF` on an out-of-scope URL: nothing happens. -/
theorem crawlF_succ_invalid (self : PyCeWL) (w : World) (fuel : Nat) (url : String) (d : Nat)
    (st : CrawlState) (h1 : ¬(d > self.depth ∨ url ∈ st.visited_urls))
    (h2 : is_valid_url self url = false) :
    crawlF self w (fuel + 1) url d st = st := by
  rw [crawlF_succ, if_neg h1, if_pos h2]

/-- `crawlF` when the fetch raises: the URL is marked visited and the
fetch attempt logged, nothing else changes, and the call returns. -/
theorem crawlF_succ_fail (self : PyCeWL) (w : World) (fuel : Nat) (url : String) (d : Nat)
    (st : CrawlState) (h1 : ¬(d > self.depth ∨ url ∈ st.visited_urls))
    (h2 : is_valid_url self url = true) (hf : w.fetch url = none) :
    crawlF self w (fuel + 1) url d st = visitMark st url d := by
  rw [crawlF_succ, if_neg h1, if_neg (by simp [h2]), hf]

/-- `crawlF` on a fetched page at the maximal depth: the page is
processed but its links are not followed. -/
theorem crawlF_succ_page_last (self : PyCeWL) (w : World) (fuel : Nat) (url : String)
    (d : Nat) (st : CrawlState) (page : Page)
    (h1 : ¬(d > self.depth ∨ url ∈ st.visited_urls))
    (h2 : is_valid_url self url = true) (hf : w.fetch url = some page)
    (h3 : ¬ d < self.depth) :
    crawlF self w (fuel + 1) url d st = absorbPage self (visitMark st url d) page := by
  rw [crawlF_succ, if_neg h1, if_neg (by simp [h2]), hf]
  exact if_neg h3

/-- `crawlF` on a fetched page below the maximal depth: the page is
processed and each resolved, fragment-stripped link is crawled in order
at depth `d + 1`. -/
theorem crawlF_succ_page_rec (self : PyCeWL) (w : World) (fuel : Nat) (url : String)
    (d : Nat) (st : CrawlState) (page : Page)
    (h1 : ¬(d > self.depth ∨ url ∈ st.visited_urls))
    (h2 : is_valid_url self url = true) (hf : w.fetch url = some page)
    (h3 : d < self.depth) :
    crawlF self w (fuel + 1) url d st =
      page.hrefs.foldl
        (fun acc href =>
          crawlF self w fuel (stripFragment (w.resolve url href)) (d + 1) acc)
        (absorbPage self (visitMark st url d) page) := by
  rw [crawlF_succ, if_neg h1, if_neg (by simp [h2]), hf]
  exact if_pos h3

/-- The inductive invariant of one `crawlF` call: the fetch log grows by
a block `new` of (url, depth) entries; the visited set grows by exactly
the newly fetched URLs, in the same order; the word tally grows by a
block of `wordOk` words; every new fetch is of an in-scope URL that was
not visited on entry, at a depth between the call depth and `self.depth`,
and a new fetch at exactly the call depth is of the call URL itself; and
no URL is fetched twice. -/
def CrawlSpec (self : PyCeWL) (w : World) (fuel : Nat) (url : String) (d : Nat)
    (st : CrawlState) : Prop :=
  ∃ new ws,
    (crawlF self w fuel url d st).fetch_log = st.fetch_log ++ new ∧
    (crawlF self w fuel url d st).visited_urls = st.visited_urls ++ new.map Prod.fst ∧
    (crawlF self w fuel url d st).words = st.words ++ ws ∧
    (∀ e ∈ new, is_valid_url self e.1 = true ∧ e.1 ∉ st.visited_urls ∧
      d ≤ e.2 ∧ e.2 ≤ self.depth ∧ (e.1 = url ∨ d < e.2)) ∧
    (new.map Prod.fst).Nodup ∧
    (∀ x ∈ ws, wordOk self x)

/-- The sibling loop (lines 122-126) preserves the invariant: folding the
per-link crawls accumulates blocks with the same properties, at depth
`d + 1`. -/
theorem crawl_fold_spec (self : PyCeWL) (w : World) (fuel : Nat) (d : Nat) (base : String)
    (IH : ∀ url dd st, CrawlSpec self w fuel url dd st) :
    ∀ (hrefs : List String) (st : CrawlState),
      ∃ new ws,
        (hrefs.foldl (fun acc href =>
            crawlF self w fuel (stripFragment (w.resolve base href)) (d + 1) acc) st).fetch_log
          = st.fetch_log ++ new ∧
        (hrefs.foldl (fun acc href =>
            crawlF self w fuel (stripFragment (w.resolve base href)) (d + 1) acc) st).visited_urls
          = st.visited_urls ++ new.map Prod.fst ∧
        (hrefs.foldl (fun acc href =>
            crawlF self w fuel (stripFragment (w.resolve base href)) (d + 1) acc) st).words
          = st.words ++ ws ∧
        (∀ e ∈ new, is_valid_url self e.1 = true ∧ e.1 ∉ st.visited_urls ∧
          d + 1 ≤ e.2 ∧ e.2 ≤ self.depth) ∧
        (new.map Prod.fst).Nodup ∧
        (∀ x ∈ ws, wordOk self x) := by
  intro hrefs
  induction hrefs with
  | nil =>
    intro st
    exact ⟨[], [], by simp, by simp, by simp, by simp, by simp, by simp⟩
  | cons href rest ihl =>
    intro st
    rw [List.foldl_cons]
    obtain ⟨n1, w1, hl1, hv1, hw1, he1, hn1, hk1⟩ :=
      IH (stripFragment (w.resolve base href)) (d + 1) st
    obtain ⟨n2, w2, hl2, hv2, hw2, he2, hn2, hk2⟩ :=
      ihl (crawlF self w fuel (stripFragment (w.resolve base href)) (d + 1) st)
    refine ⟨n1 ++ n2, w1 ++ w2, ?_, ?_, ?_, ?_, ?_, ?_⟩
    · rw [hl2, hl1, List.append_assoc]
    · rw [hv2, hv1, List.map_append, List.append_assoc]
    · rw [hw2, hw1, List.append_assoc]
    · intro e he
      rw [List.mem_append] at he
      rcases he with he | he
      · obtain ⟨ha, hb, hc, hd', _⟩ := he1 e he
        exact ⟨ha, hb, hc, hd'⟩
      · obtain ⟨ha, hb, hc, hd'⟩ := he2 e he
        refine ⟨ha, ?_, hc, hd'⟩
        intro hmem
        exact hb (by rw [hv1]; exact List.mem_append_left _ hmem)
    · rw [List.map_append, List.nodup_append]
      refine ⟨hn1, hn2, ?_⟩
      intro a ha1 ha2
      rw [List.mem_map] at ha1 ha2
      obtain ⟨e1, he1m, rfl⟩ := ha1
      obtain ⟨e2, he2m, hfst⟩ := ha2
      apply (he2 e2 he2m).2.1
      rw [hv1]
      apply List.mem_append_right
      rw [List.mem_map]
      exact ⟨e1, he1m, hfst.symm⟩
    · intro x hx
      rw [List.mem_append] at hx
      rcases hx with hx | hx
      · exact hk1 x hx
      · exact hk2 x hx

/-- The invariant holds for every `crawlF` call. -/
theorem crawl_spec (self : PyCeWL) (w : World) :
    ∀ (fuel : Nat) (url : String) (d : Nat) (st : CrawlState),
      CrawlSpec self w fuel url d st := by
  intro fuel
  induction fuel with
  | zero =>
    intro url d st
    exact ⟨[], [], by simp [crawlF_zero], by simp [crawlF_zero], by simp [crawlF_zero],
      by simp, by simp, by simp⟩
  | succ f IH =>
    intro url d st
    by_cases h1 : d > self.depth ∨ url ∈ st.visited_urls
    · rw [CrawlSpec, crawlF_succ_stop self w f url d st h1]
      exact ⟨[], [], by simp, by simp, by simp, by simp, by simp, by simp⟩
    · have hd : d ≤ self.depth := by
        rcases le_or_lt d self.depth with h | h
        · exact h
        · exact absurd (Or.inl h) h1
      have hnv : url ∉ st.visited_urls := fun hmem => h1 (Or.inr hmem)
      by_cases h2 : is_valid_url self url = false
      · rw [CrawlSpec, crawlF_succ_invalid self w f url d st h1 h2]
        exact ⟨[], [], by simp, by simp, by simp, by simp, by simp, by simp⟩
      · have hvalid : is_valid_url self url = true := by
          cases hb : is_valid_url self url
          · exact absurd hb h2
          · rfl
        cases hf : w.fetch url with
        | none =>
          rw [CrawlSpec, crawlF_succ_fail self w f url d st h1 hvalid hf,
            visitMark_eq st url d hnv]
          refine ⟨[(url, d)], [], by simp, by simp, by simp, ?_, by simp, by simp⟩
          intro e he
          rw [List.mem_singleton] at he
          subst he
          exact ⟨hvalid, hnv, Nat.le_refl d, hd, Or.inl rfl⟩
        | some page =>
          obtain ⟨ws0, hws0, hkws0⟩ := absorbPage_words self (visitMark st url d) page
          have hvm := visitMark_eq st url d hnv
          by_cases h3 : d < self.depth
          · rw [CrawlSpec, crawlF_succ_page_rec self w f url d st page h1 hvalid hf h3]
            obtain ⟨n2, w2, hl2, hv2, hw2, he2, hn2, hk2⟩ :=
              crawl_fold_spec self w f d url IH page.hrefs
                (absorbPage self (visitMark st url d) page)
            refine ⟨(url, d) :: n2, ws0 ++ w2, ?_, ?_, ?_, ?_, ?_, ?_⟩
            · rw [hl2, absorbPage_log, hvm]
              simp
            · rw [hv2, absorbPage_visited, hvm]
              simp
            · rw [hw2, hws0, hvm]
              simp
            · intro e he
              rw [List.mem_cons] at he
              rcases he with he | he
              · subst he
                exact ⟨hvalid, hnv, Nat.le_refl d, hd, Or.inl rfl⟩
              · obtain ⟨ha, hb, hc, hd'⟩ := he2 e he
                rw [absorbPage_visited, hvm] at hb
                refine ⟨ha, ?_, by omega, hd', Or.inr (by omega)⟩
                intro hmem
                exact hb (by simp [hmem])
            · rw [List.map_cons]
              rw [List.nodup_cons]
              constructor
              · intro hmem
                rw [List.mem_map] at hmem
                obtain ⟨e2, he2m, hfst⟩ := hmem
                apply (he2 e2 he2m).2.1
                rw [absorbPage_visited, hvm]
                simp [hfst]
              · exact hn2
            · intro x hx
              rw [List.mem_append] at hx
              rcases hx with hx | hx
              · exact hkws0 x hx
              · exact hk2 x hx
          · rw [CrawlSpec, crawlF_succ_page_last self w f url d st page h1 hvalid hf h3]
            refine ⟨[(url, d)], ws0, ?_, ?_, ?_, ?_, by simp, hkws0⟩
            · rw [absorbPage_log, hvm]
            · rw [absorbPage_visited, hvm]
              simp
            · rw [hws0, hvm]
            · intro e he
              rw [List.mem_singleton] at he
              subst he
              exact ⟨hvalid, hnv, Nat.le_refl d, hd, Or.inl rfl⟩

/-- Folds of pointwise-equal functions agree. -/
theorem foldl_congr_fun {α β : Type} (F G : β → α → β) (h : ∀ b a, F b a = G b a) :
    ∀ (l : List α) (b : β), l.foldl F b = l.foldl G b := by
  intro l
  induction l with
  | nil => intro b; rfl
  | cons a t ih => intro b; rw [List.foldl_cons, List.foldl_cons, h, ih]

/-- Adding fuel beyond `self.depth + 1 - d` never changes the result:
the recursion of `crawl` is bounded by the depth budget. -/
theorem crawl_fuel_mono (self : PyCeWL) (w : World) :
    ∀ (fuel k : Nat) (url : String) (d : Nat) (st : CrawlState),
      self.depth + 1 ≤ fuel + d →
      crawlF self w fuel url d st = crawlF self w (fuel + k) url d st := by
  intro fuel
  induction fuel with
  | zero =>
    intro k url d st h
    have hd : d > self.depth := by omega
    cases k with
    | zero => rfl
    | succ j =>
      rw [crawlF_zero]
      rw [show (0 + (j + 1)) = j + 1 by omega]
      rw [crawlF_succ_stop _ _ _ _ _ _ (Or.inl hd)]
  | succ f IH =>
    intro k url d st h
    rw [show (f + 1 + k) = (f + k) + 1 by omega]
    by_cases h1 : d > self.depth ∨ url ∈ st.visited_urls
    · rw [crawlF_succ_stop _ _ f _ _ _ h1, crawlF_succ_stop _ _ (f + k) _ _ _ h1]
    · by_cases h2 : is_valid_url self url = false
      · rw [crawlF_succ_invalid _ _ f _ _ _ h1 h2,
          crawlF_succ_invalid _ _ (f + k) _ _ _ h1 h2]
      · have hvalid : is_valid_url self url = true := by
          cases hb : is_valid_url self url
          · exact absurd hb h2
          · rfl
        cases hf : w.fetch url with
        | none =>
          rw [crawlF_succ_fail _ _ f _ _ _ h1 hvalid hf,
            crawlF_succ_fail _ _ (f + k) _ _ _ h1 hvalid hf]
        | some page =>
          by_cases h3 : d < self.depth
          · rw [crawlF_succ_page_rec _ _ f _ _ _ page h1 hvalid hf h3,
              crawlF_succ_page_rec _ _ (f + k) _ _ _ page h1 hvalid hf h3]
            apply foldl_congr_fun
            intro b a
            apply IH
            omega
          · rw [crawlF_succ_page_last _ _ f _ _ _ page h1 hvalid hf h3,
              crawlF_succ_page_last _ _ (f + k) _ _ _ page h1 hvalid hf h3]

/-! ## Concrete fixtures for witnesses and counterexamples -/

/-- A small configuration: depth 1, minimum word length 3, emails on. -/
def cfgA : PyCeWL :=
  { start_url := "http://h/a", depth := 1, min_word_length := 3,
    max_word_length := none, lowercase := false, with_numbers := false,
    email_file := some "emails.txt", meta := true }

def pageA : Page :=
  { text := "the quick brown fox contact a.b@x.uk",
    meta_contents := ["keywords here", ""],
    hrefs := ["http://h/b#frag", "http://other/x", "http://h/a"] }

def pageB : Page :=
  { text := "hello world", meta_contents := [], hrefs := ["http://h/c"] }

/-- A two-page site on host `h`; everything else fails to fetch. -/
def worldA : World :=
  { fetch := fun u =>
      if u = "http://h/a" then some pageA
      else if u = "http://h/b" then some pageB
      else none,
    resolve := fun _ href => href }

/-- Configuration exercising the length filter with `max_word_length`
set, on the digit-accepting alphabet. -/
def cfgU : PyCeWL :=
  { start_url := "http://h/", depth := 0, min_word_length := 1,
    max_word_length := some 1, lowercase := false, with_numbers := true,
    email_file := none, meta := false }

/-- A page whose visible text is the single character 'İ' (U+0130). -/
def pageU : Page :=
  { text := String.mk [Char.ofNat 0x130], meta_contents := [], hrefs := [] }

def worldU : World :=
  { fetch := fun _ => some pageU, resolve := fun _ href => href }

/-- Digit-free configuration with minimum word length 1. -/
def cfgX : PyCeWL :=
  { start_url := "http://h/", depth := 0, min_word_length := 1,
    max_word_length := none, lowercase := false, with_numbers := false,
    email_file := none, meta := true }

/-! ## Claim theorems -/

/-- C1: no URL is fetched more than once in a run.  A crawl call on a URL
already in the visited set returns immediately with the state unchanged;
over a whole run the visited set is exactly the list of fetched URLs in
fetch order, the fetched URLs are pairwise distinct, and the cardinality
of the visited set equals the number of fetch attempts (all of which
passed the depth/visited/scope checks, fetching being guarded by them). -/
theorem claim1_fetch_once (self : PyCeWL) (w : World) (fuel : Nat) (url : String)
    (d : Nat) (st : CrawlState) (hmem : url ∈ st.visited_urls) :
    crawlF self w fuel url d st = st ∧
    (run self w).visited_urls = (run self w).fetch_log.map Prod.fst ∧
    ((run self w).fetch_log.map Prod.fst).Nodup ∧
    (run self w).visited_urls.length = (run self w).fetch_log.length := by
  obtain ⟨new, ws, hl, hv, hw, he, hn, hk⟩ :=
    crawl_spec self w (self.depth + 1) self.start_url 0 emptyCrawlState
  have hrun : run self w = crawlF self w (self.depth + 1) self.start_url 0 emptyCrawlState :=
    rfl
  refine ⟨?_, ?_, ?_, ?_⟩
  · cases fuel with
    | zero => exact crawlF_zero self w url d st
    | succ f => exact crawlF_succ_stop self w f url d st (Or.inr hmem)
  · rw [hrun, hv, hl]
    simp [emptyCrawlState]
  · rw [hrun, hl]
    simpa [emptyCrawlState] using hn
  · rw [hrun, hv, hl]
    simp [emptyCrawlState]

/-- C2: the depth bound is enforced.  Every fetch a crawl call adds to
the log is made at a depth between the call depth `d` and
`self.depth` — so a call with `d > self.depth` fetches nothing, and the
only fetch made at depth `d` itself is the call URL, so links found on a
page at depth `self.depth` are never fetched; with `depth = 0`,
instantiating at the run's root call `(start_url, 0)`, only the start
URL can ever be fetched. -/
theorem claim2_depth_bound (self : PyCeWL) (w : World) (fuel : Nat) (url : String)
    (d : Nat) (st : CrawlState) (u : String) (k : Nat)
    (hmem : (u, k) ∈ (crawlF self w fuel url d st).fetch_log)
    (hnew : (u, k) ∉ st.fetch_log) :
    d ≤ k ∧ k ≤ self.depth ∧ (u = url ∨ d < k) := by
  obtain ⟨new, ws, hl, hv, hw, he, hn, hk⟩ := crawl_spec self w fuel url d st
  rw [hl, List.mem_append] at hmem
  rcases hmem with hmem | hmem
  · exact absurd hmem hnew
  · obtain ⟨_, _, hc, hd', hee⟩ := he (u, k) hmem
    exact ⟨hc, hd', hee⟩

/-- C3: scope.  `is_valid_url` holds exactly when the URL's netloc
equals the start URL's netloc (scheme and path are irrelevant — swapping
`http://` for `https://` never changes the netloc), and every URL newly
added to the visited set during a crawl satisfied `is_valid_url` when it
was added. -/
theorem claim3_scope (self : PyCeWL) (w : World) (fuel : Nat) (url : String)
    (d : Nat) (st : CrawlState) (u : String)
    (hu : u ∈ (crawlF self w fuel url d st).visited_urls)
    (hnot : u ∉ st.visited_urls) :
    is_valid_url self u = true ∧
    (is_valid_url self url = true ↔ netlocOf url = netlocOf self.start_url) ∧
    netlocOf ("http://" ++ url) = netlocOf ("https://" ++ url) := by
  refine ⟨?_, is_valid_url_iff self url, netlocOf_scheme_swap url⟩
  obtain ⟨new, ws, hl, hv, hw, he, hn, hk⟩ := crawl_spec self w fuel url d st
  rw [hv, List.mem_append] at hu
  rcases hu with hu | hu
  · exact absurd hu hnot
  · rw [List.mem_map] at hu
    obtain ⟨e, hem, hfst⟩ := hu
    exact hfst ▸ (he e hem).1

/-- C4 counterexample: the claim "every key of the final WordTally has
length at most `max_word_length` when it is set" fails.  With
`max_word_length = 1` and a page whose text is 'İ' (U+0130), the matched
token has length 1 and passes the filter, but Python lowercases 'İ' to
"i̇" (two characters: `'İ'.lower() == 'i̇'` in CPython), so the
stored key has length 2 > 1. -/
theorem claim4_counterexample :
    cfgU.max_word_length = some 1 ∧
    String.mk [Char.ofNat 0x69, Char.ofNat 0x307] ∈ (run cfgU worldU).words ∧
    ¬((String.mk [Char.ofNat 0x69, Char.ofNat 0x307]).length ≤ 1) := by
  refine ⟨rfl, ?_, by decide⟩
  decide

/-- C4 (amended): every word newly merged into the tally during a crawl
meets the minimum length (lowercasing never shortens a string) and is
lowercase (a fixed point of `pyStrLower`); word counts only ever
increase.  The pre-lowercase token length is what `max_word_length`
bounds, so a stored key can exceed `max_word_length` when lowercasing
lengthens the token (see `claim4_counterexample`). -/
theorem claim4_amended (self : PyCeWL) (w : World) (fuel : Nat) (url : String)
    (d : Nat) (st : CrawlState) (x wc : String)
    (hx : x ∈ (crawlF self w fuel url d st).words)
    (hnot : x ∉ st.words) :
    self.min_word_length ≤ x.length ∧ pyStrLower x.data = x.data ∧
    st.words.count wc ≤ (crawlF self w fuel url d st).words.count wc := by
  obtain ⟨new, ws, hl, hv, hw, he, hn, hk⟩ := crawl_spec self w fuel url d st
  have hx' : x ∈ ws := by
    rw [hw, List.mem_append] at hx
    rcases hx with hx | hx
    · exact absurd hx hnot
    · exact hx
  obtain ⟨h1, h2⟩ := hk x hx'
  refine ⟨h1, h2, ?_⟩
  rw [hw, List.count_append]
  omega

/-- C5: a failed fetch stops only its own branch.  When the fetch of an
eligible URL raises, the call returns normally with the URL marked
visited and the attempt logged but the word tally and email set
untouched; and any later crawl of that URL (it is in the visited set)
returns immediately without fetching, so the failure is never retried
while sibling links continue to be folded over unchanged. -/
theorem claim5_failure_isolated (self : PyCeWL) (w : World) (fuel : Nat) (url : String)
    (d : Nat) (st : CrawlState) (st2 : CrawlState) (fuel2 d2 : Nat)
    (hnv : url ∉ st.visited_urls) (hv : is_valid_url self url = true)
    (hd : d ≤ self.depth) (hf : w.fetch url = none)
    (hmem : url ∈ st2.visited_urls) :
    crawlF self w (fuel + 1) url d st =
      { st with visited_urls := st.visited_urls ++ [url],
                fetch_log := st.fetch_log ++ [(url, d)] } ∧
    crawlF self w fuel2 url d2 st2 = st2 := by
  constructor
  · have h1 : ¬(d > self.depth ∨ url ∈ st.visited_urls) := by
      rintro (hgt | hm)
      · omega
      · exact hnv hm
    rw [crawlF_succ_fail self w fuel url d st h1 hv hf, visitMark_eq st url d hnv]
  · cases fuel2 with
    | zero => exact crawlF_zero self w url d2 st2
    | succ f2 => exact crawlF_succ_stop self w f2 url d2 st2 (Or.inr hmem)

/-- C6: the crawl terminates on every configuration and every world: the
recursion is bounded by the depth budget, so any two fuels at least
`self.depth + 1 - d` (stated additively) give the same result — the
recursion never needs unbounded unfolding.  (The visited set also only
grows, `crawl_spec`; the depth bound alone already bounds the work.) -/
theorem claim6_terminates (self : PyCeWL) (w : World) (fuel fuel2 : Nat) (url : String)
    (d : Nat) (st : CrawlState)
    (h1 : self.depth + 1 ≤ fuel + d) (h2 : self.depth + 1 ≤ fuel2 + d) :
    crawlF self w fuel url d st = crawlF self w fuel2 url d st := by
  rcases le_total fuel fuel2 with h | h
  · obtain ⟨k, rfl⟩ := Nat.le.dest h
    exact crawl_fuel_mono self w fuel k url d st h1
  · obtain ⟨k, rfl⟩ := Nat.le.dest h
    exact (crawl_fuel_mono self w fuel2 k url d st h2).symm

/-- C7: the tokenizer never reads the `lowercase` flag: configurations
differing only in that flag tokenize every text identically (output is
lowercased unconditionally).  Determinism is inherent: `extract_words`
is a pure function of the configuration and the text. -/
theorem claim7_lowercase_flag_irrelevant (self : PyCeWL) (b : Bool) (t : String) :
    extract_words { self with lowercase := b } t = extract_words self t := rfl

/-- C8: with `with_numbers = false`, no returned word contains a digit:
the alphabet `[a-zA-ZÀ-ÿ]` contains no digit and lowercasing keeps it
inside { a-z, U+00C0 .. U+00FF }, so a token such as "abc123" can only
contribute digit-free words (in fact it is rejected outright, its
trailing position having no word boundary). -/
theorem claim8_no_digits (self : PyCeWL) (h : self.with_numbers = false)
    (t x : String) (ch : Char) (hx : x ∈ extract_words self t) (hch : ch ∈ x.data) :
    isDigitChar ch = false :=
  extract_words_no_digit self h t x ch hx hch

/-- C9: the email pattern on the spec's example text returns exactly the
one address, greedy backtracking landing on "a.b+test@example.co.uk". -/
theorem claim9_email_example :
    extract_emails "contact me at a.b+test@example.co.uk please" =
      ["a.b+test@example.co.uk"] := by
  decide

/-- C10 counterexample: not every returned word is a fixed point of the
tokenizer.  On "a×1" the digit-free pattern matches "a×" — the class
`[a-zA-ZÀ-ÿ]` contains '×' (U+00D7), which is not a word character, so a
word boundary sits between '×' and '1'.  Re-tokenizing "a×" yields
["a"]: at the end of the string there is no boundary after '×', so the
greedy match backtracks to "a". -/
theorem claim10_counterexample :
    cfgX.with_numbers = false ∧
    String.mk ['a', '×'] ∈ extract_words cfgX "a×1" ∧
    extract_words cfgX (String.mk ['a', '×']) ≠ [String.mk ['a', '×']] := by
  refine ⟨rfl, ?_, ?_⟩ <;> decide

/-- C10 (amended): with `with_numbers = false`, a returned word all of
whose characters are word characters (which excludes only '×' and '÷'
among the class members) is a fixed point: `extract_words self w = [w]`.
Such a word is non-empty, lowercase, inside the class alphabet, of
unchanged length (no character of the digit-free alphabet lengthens
under lowercasing), so it already passes the length filter, and the
scanner returns it whole. -/
theorem claim10_amended (self : PyCeWL) (t wrd : String)
    (hn : self.with_numbers = false)
    (hw : wrd ∈ extract_words self t)
    (hword : wrd.data.all isWordChar = true) :
    extract_words self wrd = [wrd] := by
  obtain ⟨r, hr, hlen, hwe⟩ := extract_words_mem self t wrd hw
  rw [hn] at hr
  simp only [Bool.false_eq_true, if_false] at hr
  obtain ⟨hrne, hrcls⟩ := findRuns_mem _ _ r hr
  obtain ⟨hlow_len, hlow_cls⟩ := pyStrLower_noNum r hrcls
  have hwdata : wrd.data = pyStrLower r := by rw [hwe]
  have hne : wrd.data ≠ [] := by
    rw [hwdata]
    intro hcon
    apply hrne
    have : r.length = 0 := by
      rw [← hlow_len, hcon]
      rfl
    exact List.length_eq_zero.mp this
  have hcls : ∀ c ∈ wrd.data, noNumClass c = true := by
    rw [hwdata]
    exact hlow_cls
  have hwrd : ∀ c ∈ wrd.data, isWordChar c = true :=
    fun c hc => List.all_eq_true.mp hword c hc
  have hmkw : String.mk wrd.data = wrd := by
    cases wrd
    rfl
  unfold extract_words
  rw [hn]
  simp only [Bool.false_eq_true, if_false]
  rw [findRuns_whole noNumClass wrd.data hne hcls hwrd]
  have hlenw : lenOK self wrd.data.length = true := by
    have : wrd.data.length = r.length := by rw [hwdata, hlow_len]
    rw [this]
    exact hlen
  have hfix : pyStrLower wrd.data = wrd.data := by
    rw [hwdata]
    exact pyStrLower_idem r
  simp only [List.filterMap_cons, List.filterMap_nil, hlenw, if_true, hfix, hmkw]

/-! ## Witnesses: each hypothesis-bearing claim theorem applied at a
concrete instance. -/

/-- A state in which `http://h/a` has already been visited. -/
def stV : CrawlState :=
  { visited_urls := ["http://h/a"], words := ["quick"], emails := [],
    fetch_log := [("http://h/a", 0)] }

/-- A state in which `http://h/nope` has already been visited. -/
def stN : CrawlState :=
  { visited_urls := ["http://h/nope"], words := [], emails := [],
    fetch_log := [("http://h/nope", 0)] }

theorem claim1_fetch_once_witness :
    "http://h/a" ∈ stV.visited_urls ∧
    (crawlF cfgA worldA 3 "http://h/a" 0 stV = stV ∧
     (run cfgA worldA).visited_urls = (run cfgA worldA).fetch_log.map Prod.fst ∧
     ((run cfgA worldA).fetch_log.map Prod.fst).Nodup ∧
     (run cfgA worldA).visited_urls.length = (run cfgA worldA).fetch_log.length) :=
  ⟨by decide, claim1_fetch_once cfgA worldA 3 "http://h/a" 0 stV (by decide)⟩

theorem claim2_depth_bound_witness :
    ("http://h/b", 1) ∈ (crawlF cfgA worldA 2 "http://h/a" 0 emptyCrawlState).fetch_log ∧
    ("http://h/b", 1) ∉ emptyCrawlState.fetch_log ∧
    (0 ≤ 1 ∧ 1 ≤ cfgA.depth ∧ ("http://h/b" = "http://h/a" ∨ 0 < 1)) :=
  ⟨by decide, by decide,
    claim2_depth_bound cfgA worldA 2 "http://h/a" 0 emptyCrawlState "http://h/b" 1
      (by decide) (by decide)⟩

theorem claim3_scope_witness :
    "http://h/b" ∈ (crawlF cfgA worldA 2 "http://h/a" 0 emptyCrawlState).visited_urls ∧
    "http://h/b" ∉ emptyCrawlState.visited_urls ∧
    (is_valid_url cfgA "http://h/b" = true ∧
     (is_valid_url cfgA "http://h/a" = true ↔
       netlocOf "http://h/a" = netlocOf cfgA.start_url) ∧
     netlocOf ("http://" ++ "http://h/a") = netlocOf ("https://" ++ "http://h/a")) :=
  ⟨by decide, by decide,
    claim3_scope cfgA worldA 2 "http://h/a" 0 emptyCrawlState "http://h/b"
      (by decide) (by decide)⟩

theorem claim4_amended_witness :
    "quick" ∈ (crawlF cfgA worldA 2 "http://h/a" 0 emptyCrawlState).words ∧
    "quick" ∉ emptyCrawlState.words ∧
    (cfgA.min_word_length ≤ "quick".length ∧
     pyStrLower "quick".data = "quick".data ∧
     emptyCrawlState.words.count "quick" ≤
       (crawlF cfgA worldA 2 "http://h/a" 0 emptyCrawlState).words.count "quick") :=
  ⟨by decide, by decide,
    claim4_amended cfgA worldA 2 "http://h/a" 0 emptyCrawlState "quick" "quick"
      (by decide) (by decide)⟩

theorem claim5_failure_isolated_witness :
    "http://h/nope" ∉ emptyCrawlState.visited_urls ∧
    is_valid_url cfgA "http://h/nope" = true ∧
    0 ≤ cfgA.depth ∧
    worldA.fetch "http://h/nope" = none ∧
    "http://h/nope" ∈ stN.visited_urls ∧
    (crawlF cfgA worldA (1 + 1) "http://h/nope" 0 emptyCrawlState =
      { emptyCrawlState with
          visited_urls := emptyCrawlState.visited_urls ++ ["http://h/nope"],
          fetch_log := emptyCrawlState.fetch_log ++ [("http://h/nope", 0)] } ∧
     crawlF cfgA worldA 4 "http://h/nope" 1 stN = stN) :=
  ⟨by decide, by decide, by decide, by decide, by decide,
    claim5_failure_isolated cfgA worldA 1 "http://h/nope" 0 emptyCrawlState stN 4 1
      (by decide) (by decide) (by decide) (by decide) (by decide)⟩

theorem claim6_terminates_witness :
    cfgA.depth + 1 ≤ 2 + 0 ∧
    cfgA.depth + 1 ≤ 5 + 0 ∧
    crawlF cfgA worldA 2 "http://h/a" 0 emptyCrawlState =
      crawlF cfgA worldA 5 "http://h/a" 0 emptyCrawlState :=
  ⟨by decide, by decide,
    claim6_terminates cfgA worldA 2 5 "http://h/a" 0 emptyCrawlState
      (by decide) (by decide)⟩

theorem claim8_no_digits_witness :
    cfgA.with_numbers = false ∧
    "abc" ∈ extract_words cfgA "abc 123 x7y" ∧
    'b' ∈ "abc".data ∧
    isDigitChar 'b' = false :=
  ⟨rfl, by decide, by decide,
    claim8_no_digits cfgA rfl "abc 123 x7y" "abc" 'b' (by decide) (by decide)⟩

theorem claim10_amended_witness :
    cfgA.with_numbers = false ∧
    "quick" ∈ extract_words cfgA "the quick" ∧
    "quick".data.all isWordChar = true ∧
    extract_words cfgA "quick" = ["quick"] :=
  ⟨rfl, by decide, by decide,
    claim10_amended cfgA "the quick" "quick" rfl (by decide) (by decide)⟩
